import Mathlib

/-!
Verification development for the Mora Bets repository.

Each Python module relevant to the checked claims is embedded shallowly in its
own namespace: pure functions become Lean functions over `ℚ`/`ℤ`/`String`,
Python dictionaries become structures or insertion-ordered association lists,
`None` becomes `Option.none`, and Python `round` (banker's rounding) becomes
`pyRound` below.  Float arithmetic is embedded as exact rational arithmetic.
External HTTP calls (odds provider, statistics provider, LLM) are passed in as
function parameters so that results hold for every possible upstream answer.

Layout: all definitions first, then all theorems.
-/

/-- Round-half-to-even on a rational, the behaviour of Python's built-in
`round` at the integer scale. -/
def roundHalfEven (x : ℚ) : ℤ :=
  if x - ⌊x⌋ < 1/2 then ⌊x⌋
  else if 1/2 < x - ⌊x⌋ then ⌊x⌋ + 1
  else if ⌊x⌋ % 2 = 0 then ⌊x⌋ else ⌊x⌋ + 1

/-- Python `round(x, p)` on a rational: banker's rounding at `p` decimal
places. -/
def pyRound (p : ℕ) (x : ℚ) : ℚ := (roundHalfEven (x * 10 ^ p) : ℚ) / 10 ^ p

/-- Python truncation `int(x)` toward zero. -/
def pyInt (x : ℚ) : ℤ := if 0 ≤ x then ⌊x⌋ else -⌊-x⌋

/-- Python `a or b` on strings: the left operand unless it is falsy (empty). -/
def pyOr (a b : String) : String := if a = "" then b else a

/-- Python `s.lower()` (restricted to the ASCII names appearing here). -/
def pyLower (s : String) : String := ⟨s.data.map Char.toLower⟩

/-- Python `s.upper()` (restricted to the ASCII keys appearing here). -/
def pyUpper (s : String) : String := ⟨s.data.map Char.toUpper⟩

/-- Python `s.strip()`: drop leading and trailing whitespace. -/
def pyStrip (s : String) : String :=
  ⟨((s.data.dropWhile Char.isWhitespace).reverse.dropWhile Char.isWhitespace).reverse⟩

def splitWsGo : List Char → List Char → List String
  | [], acc => if acc.isEmpty then [] else [⟨acc.reverse⟩]
  | c :: cs, acc =>
    if c.isWhitespace then
      (if acc.isEmpty then splitWsGo cs [] else ⟨acc.reverse⟩ :: splitWsGo cs [])
    else splitWsGo cs (c :: acc)

/-- Python `s.split()` with no argument: split on whitespace runs, no empty
parts. -/
def pySplitWs (s : String) : List String := splitWsGo s.data []

def listContainsChars : List Char → List Char → Bool
  | _, [] => true
  | [], _ :: _ => false
  | c :: t, n :: m => (n :: m).isPrefixOf (c :: t) || listContainsChars t (n :: m)

/-- Python `needle in hay` on strings. -/
def strContains (hay needle : String) : Bool := listContainsChars hay.data needle.data

/-- `collections.defaultdict(list)` append: extend the list at an existing key
in place, or add the key at the end, preserving insertion order. -/
def appendGroup {α : Type} : List (String × List α) → String → α → List (String × List α)
  | [], mu, x => [(mu, [x])]
  | (m, l) :: rest, mu, x =>
    if m = mu then (m, l ++ [x]) :: rest else (m, l) :: appendGroup rest mu x

namespace Novig

/-- Modelled from the spec: the repository imports `american_to_prob` from a
module `novig` whose source file is absent from the repository (only its
callers in `odds_api.py`, `pairing.py` and `app.py` are present).  Spec §4.1:
`americanToProbability(odds)`: for `odds ≥ 0`, `100 / (odds + 100)`; else
`|odds| / (|odds| + 100)`. -/
def american_to_prob_num (o : ℚ) : ℚ :=
  if 0 ≤ o then 100 / (o + 100) else (-o) / (-o + 100)

/-- Modelled from the spec: `americanToProbability` returns an absent value for
a missing input, never raising past the boundary. -/
def american_to_prob : Option ℚ → Option ℚ
  | none => none
  | some o => some (american_to_prob_num o)

/-- Modelled from the spec: `noVigTwoWay(oddsA, oddsB)` computes both implied
probabilities and returns `(pA/(pA+pB), pB/(pA+pB))`, or `(absent, absent)` if
either implied probability is absent or the sum is ≤ 0. -/
def novig_two_way (a b : Option ℚ) : Option (ℚ × ℚ) :=
  match american_to_prob a, american_to_prob b with
  | some pa, some pb =>
    if pa + pb ≤ 0 then none else some (pa / (pa + pb), pb / (pa + pb))
  | _, _ => none

end Novig

namespace Probability

/-- Embeds `probability.american_to_implied`: `100/(v+100)` if `v > 0`, else
`|v|/(|v|+100)`.  (Its Python original has no missing-input handling: it is
only defined on numeric input.) -/
def american_to_implied (v : ℚ) : ℚ :=
  if 0 < v then 100 / (v + 100) else |v| / (|v| + 100)

/-- Embeds `probability.american_to_prob`: `None` passes through; otherwise
`100/(o+100)` if `o > 0`, else `(-o)/(100-o)`. -/
def american_to_prob : Option ℚ → Option ℚ
  | none => none
  | some o => some (if 0 < o then 100 / (o + 100) else (-o) / (100 - o))

/-- Embeds `probability.implieds_to_no_vig`. -/
def implieds_to_no_vig (pa pb : ℚ) : Option (ℚ × ℚ) :=
  if pa + pb ≤ 0 then none else some (pa / (pa + pb), pb / (pa + pb))

/-- Embeds `probability.fair_probs_from_two_sided`. -/
def fair_probs_from_two_sided (a b : ℚ) : Option (ℚ × ℚ) :=
  implieds_to_no_vig (american_to_implied a) (american_to_implied b)

/-- Embeds `probability.decimal_to_american`. -/
def decimal_to_american (d : ℚ) : ℤ :=
  if d ≤ 1 then 0
  else if 1 ≤ d - 1 then roundHalfEven ((d - 1) * 100)
  else roundHalfEven (-100 / (d - 1))

/-- Embeds `probability.fair_odds_from_prob`. -/
def fair_odds_from_prob (p : ℚ) : ℤ :=
  if p ≤ 0 ∨ 1 ≤ p then 0 else decimal_to_american (1 / p)

end Probability

namespace OddsTotalsContext

/-- Embeds `services/odds_totals_context.american_to_prob`: a missing price
maps to `0.0`, and the sign branch uses `a >= 0` (unlike the other copies). -/
def american_to_prob : Option ℤ → ℚ
  | none => 0
  | some a => if 0 ≤ a then 100 / ((a : ℚ) + 100) else (-(a : ℚ)) / (-(a : ℚ) + 100)

end OddsTotalsContext

namespace UniversalCache

/-- A Phoenix-local wall-clock instant, as far as `universal_cache.current_slot`
inspects and rebuilds it: `datetime.replace` keeps the day and replaces the
time fields, `timedelta(days=1)` advances the day. -/
structure LocalDT where
  day : ℤ
  hour : ℕ
  minute : ℕ
  second : ℕ
  microsecond : ℕ
deriving DecidableEq

/-- Embeds `universal_cache.current_slot`: returns the slot name and the next
boundary instant, from boundaries at local hours 8, 13 and 18. -/
def current_slot (dt : LocalDT) : String × LocalDT :=
  if dt.hour < 8 then
    ("night", { dt with hour := 8, minute := 0, second := 0, microsecond := 0 })
  else if dt.hour < 13 then
    ("morning", { dt with hour := 13, minute := 0, second := 0, microsecond := 0 })
  else if dt.hour < 18 then
    ("afternoon", { dt with hour := 18, minute := 0, second := 0, microsecond := 0 })
  else
    ("night", { day := dt.day + 1, hour := 8, minute := 0, second := 0, microsecond := 0 })

/-- The in-process memory cache `_mem` of `universal_cache`, specialised to the
values the batter-trend subsystem stores through it (a player id, or JSON
`null` for a failed resolution): key `↦` (expiry epoch-second, stored value).
A stored `none` models `json.dumps(None) = "null"`. -/
abbrev Mem := List (String × (ℕ × Option ℕ))

/-- Python dict assignment: overwrite in place or append at the end. -/
def mem_insert (mem : Mem) (k : String) (v : ℕ × Option ℕ) : Mem :=
  if mem.any (fun kv => kv.1 == k) then
    mem.map (fun kv => if kv.1 == k then (k, v) else kv)
  else mem ++ [(k, v)]

/-- The composite cache key `props:{league}:{date}:{slot}` built by
`universal_cache._key` — note both `get_cached` and `set_cached` pass their
`league` argument (which `mlb_trends` feeds arbitrary key strings into)
through this same construction. -/
def cache_key (league date slot : String) : String :=
  "props:" ++ league ++ ":" ++ date ++ ":" ++ slot

/-- Embeds `universal_cache.get_cached` (memory branch): a hit returns the
stored JSON-decoded value, a miss or an expired entry returns `None`.  Because
the Python function returns the decoded value directly, a stored `null` is
returned as `None` and is therefore indistinguishable from a miss — the
collapse is in the source's own return type, and this embedding mirrors it. -/
def get_cached (mem : Mem) (date slot : String) (now : ℕ) (league : String) : Option ℕ :=
  match mem.lookup (cache_key league date slot) with
  | some ev => if now < ev.1 then ev.2 else none
  | none => none

/-- Embeds `universal_cache.set_cached` (memory branch); the TTL to the next
slot boundary is abstracted as the parameter `ttl`. -/
def set_cached (mem : Mem) (date slot : String) (now ttl : ℕ) (league : String)
    (v : Option ℕ) : Mem :=
  mem_insert mem (cache_key league date slot) (now + ttl, v)

end UniversalCache

namespace MlbTrends

/-- One entry of the statistics provider's `people` search response, as far as
`mlb_trends.lookup_player_id` reads it. -/
structure Candidate where
  id : Option ℕ := none
  lastPlayedTeamName : String := ""
  fullFMLName : String := ""
deriving DecidableEq

/-- Embeds `mlb_trends._cache_key_player_id`. -/
def cache_key_player_id (name : String) : String := "mlb:pid:" ++ pyLower (pyStrip name)

/-- The team-hint scan inside `lookup_player_id`: first candidate whose
last-played team name (falling back to `fullFMLName`) contains the hint. -/
def pick_by_team_hint (team_hint_l : String) (cands : List Candidate) : Option Candidate :=
  cands.find? (fun c => strContains (pyLower (pyOr c.lastPlayedTeamName c.fullFMLName)) team_hint_l)

/-- Embeds `mlb_trends.lookup_player_id`.  `search` stands for the provider's
people-search HTTP call; the returned `Bool` records whether that call was
performed on this invocation.  `date`/`slot`/`now`/`ttl` are the ambient
clock values the cache layer reads. -/
def lookup_player_id (search : String → List Candidate) (date slot : String) (now ttl : ℕ)
    (mem : UniversalCache.Mem) (name : String) (team_hint : Option String) :
    Option ℕ × UniversalCache.Mem × Bool :=
  let k := cache_key_player_id name
  match UniversalCache.get_cached mem date slot now k with
  | some pid => (some pid, mem, false)
  | none =>
    match search name with
    | [] => (none, UniversalCache.set_cached mem date slot now ttl k none, true)
    | c0 :: rest =>
      match team_hint with
      | some th =>
        match pick_by_team_hint (pyLower (pyStrip th)) (c0 :: rest) with
        | some c => (c.id, UniversalCache.set_cached mem date slot now ttl k c.id, true)
        | none => (c0.id, UniversalCache.set_cached mem date slot now ttl k c0.id, true)
      | none => (c0.id, UniversalCache.set_cached mem date slot now ttl k c0.id, true)

end MlbTrends

namespace OddsApi

/-- One side's best shop price on a prop row: `{american, book}`. -/
structure Offer where
  american : ℤ
  book : String
deriving DecidableEq

/-- The `shop` dict of a prop row.  `Row.shop = none` models both an absent
and an empty (falsy) `shop` dict; in the pipeline a present `shop` always has
at least one side. -/
structure Shop where
  over : Option Offer := none
  under : Option Offer := none
deriving DecidableEq

/-- The `fair.prob` dict; the `{over: 0.0, under: 0.0}` placeholder is the
default value. -/
structure FairProb where
  over : ℚ := 0
  under : ℚ := 0
deriving DecidableEq

/-- The `fair` dict of a prop row. -/
structure Fair where
  prob : FairProb := {}
  american : Option (ℤ × ℤ) := none
  book : Option String := none
deriving DecidableEq

/-- Result of a contextual / fantasy hit-rate computation as attached to a
row.  Only the fields the checked claims inspect are listed; the enrichment
oracles below may produce any value of this shape. -/
structure Ctx where
  hitRate : Option ℚ := none
  confidence : String := ""
  enhancedHitRate : Option ℚ := none
  note : String := ""
deriving DecidableEq

/-- A prop row of the MLB ingestion pipeline (spec §3). -/
structure Row where
  player : String := ""
  stat : String := ""
  line : Option ℚ := none
  matchup : Option String := none
  shop : Option Shop := none
  bookmaker : Option String := none
  odds : Option ℤ := none
  side : Option String := none
  book : Option String := none
  fair : Option Fair := none
  contextualHitRate : Option Ctx := none
  fantasyHitRate : Option Ctx := none
  enriched : Option Bool := none
deriving DecidableEq

/-- Embeds `odds_api.fair_odds_from_prob` (the module-local version used by
`_attach_fair_or_implied`). -/
def fair_odds_from_prob (p : ℚ) : ℤ :=
  if p ≤ 0 ∨ 1 ≤ p then 0
  else if 1/2 ≤ p then roundHalfEven (-100 * p / (1 - p))
  else roundHalfEven (100 * (1 - p) / p)

/-- Embeds `odds_api.fair_probs_from_two_sided`: no-vig from two American
prices via the (spec-modelled) `novig` module. -/
def fair_probs_from_two_sided (a b : ℤ) : Option (ℚ × ℚ) :=
  Novig.novig_two_way (some (a : ℚ)) (some (b : ℚ))

/-- Embeds `odds_api._attach_fair_or_implied`.  Branches in source order:
both shop sides → no-vig split with fair American prices and source book;
over only / under only → implied probability and complement; generic `odds`
fallback; otherwise the row keeps the `{0,0}` placeholder installed by the
two `setdefault` calls.  When the no-vig helper returns an absent pair the
Python code falls through to the generic-fallback check, which the nested
match mirrors. -/
def attach_fair_or_implied (r : Row) : Row :=
  let s := r.shop.getD {}
  let fair0 := r.fair.getD {}
  match s.over, s.under with
  | some ov, some un =>
    match fair_probs_from_two_sided ov.american un.american with
    | some pq =>
      { r with fair := some { fair0 with
          prob := { over := pyRound 4 pq.1, under := pyRound 4 pq.2 },
          american := some (fair_odds_from_prob pq.1, fair_odds_from_prob pq.2),
          book := some (pyOr ov.book (pyOr un.book (r.bookmaker.getD ""))) } }
    | none =>
      match r.odds with
      | some fb =>
        { r with fair := some { fair0 with
            prob := { over := pyRound 4 (Novig.american_to_prob_num fb),
                      under := pyRound 4 (1 - Novig.american_to_prob_num fb) },
            book := some (r.bookmaker.getD "") } }
      | none => { r with fair := some fair0 }
  | some ov, none =>
    { r with fair := some { fair0 with
        prob := { over := pyRound 4 (Novig.american_to_prob_num ov.american),
                  under := pyRound 4 (1 - Novig.american_to_prob_num ov.american) },
        book := some (pyOr ov.book (r.bookmaker.getD "")) } }
  | none, some un =>
    { r with fair := some { fair0 with
        prob := { over := pyRound 4 (1 - Novig.american_to_prob_num un.american),
                  under := pyRound 4 (Novig.american_to_prob_num un.american) },
        book := some (pyOr un.book (r.bookmaker.getD "")) } }
  | none, none =>
    match r.odds with
    | some fb =>
      { r with fair := some { fair0 with
          prob := { over := pyRound 4 (Novig.american_to_prob_num fb),
                    under := pyRound 4 (1 - Novig.american_to_prob_num fb) },
          book := some (r.bookmaker.getD "") } }
    | none => { r with fair := some fair0 }

/-- Embeds `odds_api._is_zero_prob`. -/
def is_zero_prob (r : Row) : Bool :=
  decide ((r.fair.getD {}).prob.over = 0) && decide ((r.fair.getD {}).prob.under = 0)

/-- Embeds `odds_api._ensure_shop_and_fallback`: synthesise a `shop.over` from
the generic `odds`/`bookmaker` fields when the shop dict is missing or empty. -/
def ensure_shop_and_fallback (r : Row) : Row :=
  if r.shop.isNone then
    match r.odds with
    | some od =>
      { r with shop := some { over := some { american := od, book := r.bookmaker.getD "" } } }
    | none => r
  else r

/-- Embeds the per-row body of `odds_api._finalize_fair`. -/
def finalize_fair_row (r : Row) : Row :=
  if is_zero_prob r then attach_fair_or_implied (ensure_shop_and_fallback r) else r

/-- Embeds `odds_api._finalize_fair` over a row list. -/
def finalize_fair (rows : List Row) : List Row := rows.map finalize_fair_row

/-- The spec's prop-row pricing invariant: `fair.prob` is either the `{0,0}`
unresolved placeholder or sums to 1 within rounding tolerance. -/
def fairInvariant (r : Row) : Prop :=
  ∃ f, r.fair = some f ∧
    ((f.prob.over = 0 ∧ f.prob.under = 0) ∨ |f.prob.over + f.prob.under - 1| ≤ 1/10000)

/-- Embeds `odds_api.enrich_prop`.  The contextual and fantasy hit-rate
computations (and their fallback shaping) only ever build the two `Ctx`
values attached at the end — they never touch pricing — so their outcomes are
taken as the parameters `contextual` and `fantasy`, universally quantified in
the theorems.  The fair-odds paths are embedded exactly: a resolved
`fair.prob` is preserved untouched, a present-but-`{0,0}` pair is recomputed
from the shop prices via `probability.fair_probs_from_two_sided`. -/
def enrich_prop (contextual fantasy : Ctx) (r : Row) : Row :=
  let r1 :=
    match r.fair with
    | some f =>
      if f.prob.over ≠ 0 ∨ f.prob.under ≠ 0 then r
      else
        match (r.shop.getD {}).over, (r.shop.getD {}).under with
        | some ov, some un =>
          match Probability.fair_probs_from_two_sided (ov.american : ℚ) (un.american : ℚ) with
          | some pq =>
            { r with fair := some { f with
                prob := { over := pyRound 4 pq.1, under := pyRound 4 pq.2 },
                american := some (Probability.fair_odds_from_prob pq.1,
                                  Probability.fair_odds_from_prob pq.2) } }
          | none => r
        | _, _ => r
    | none => r
  { r1 with contextualHitRate := some contextual, fantasyHitRate := some fantasy,
            enriched := some true }

end OddsApi

namespace AiScout

/-- One pick of the LLM response consumed by `ai_scout.merge_and_gate`.
`best_odds`/`prob` are optional: a pick whose fields are missing or
non-numeric is skipped by the gate's `try/except`. -/
structure Pick where
  player : String := ""
  market : String := ""
  side : String := ""
  line : Option ℚ := none
  best_book : String := ""
  best_odds : Option ℤ := none
  prob : Option ℚ := none
  pick_type : String := ""
  value_score : Option ℚ := none
  rationale : String := ""
  ev : Option ℚ := none
deriving DecidableEq

/-- Embeds `ai_scout.american_profit`. -/
def american_profit (odds : ℤ) : ℚ :=
  if 0 ≤ odds then (odds : ℚ) / 100 else 100 / |(odds : ℚ)|

/-- Embeds `ai_scout.ev_per_unit`. -/
def ev_per_unit (p : ℚ) (odds : ℤ) : ℚ := p * american_profit odds - (1 - p)

/-- The per-pick body of `merge_and_gate`: recompute EV from the pick's own
`best_odds`/`prob`, keep only strictly positive EV, and write the recomputed
`ev` onto the pick (the Python code mutates the pick dict in place). -/
def gate_pick (p : Pick) : Option Pick :=
  match p.best_odds, p.prob with
  | some odds, some prob =>
    if 0 < ev_per_unit prob odds then some { p with ev := some (ev_per_unit prob odds) }
    else none
  | _, _ => none

/-- Embeds `ai_scout.merge_and_gate`: gate every pick, then sort descending by
the recomputed EV (Python's stable `sorted` with `reverse=True`). -/
def merge_and_gate (picks : List Pick) : List Pick :=
  (picks.filterMap gate_pick).mergeSort (fun a b => decide (b.ev.getD 0 ≤ a.ev.getD 0))

/-- The state of the caller's pick list after one `merge_and_gate` pass: the
in-place `p["ev"] = ev` mutation has been applied to every kept pick. -/
def mutate_after_gate (picks : List Pick) : List Pick :=
  picks.map (fun p => (gate_pick p).getD p)

end AiScout

namespace Pairing

/-- One raw per-book offer consumed by `pairing.build_props_novig`. -/
structure RawOffer where
  eventKey : String := ""
  matchup : String := ""
  player : String := ""
  stat : Option String := none
  line : Option ℚ := none
  book : String := ""
  side : String := ""
  odds : Option ℤ := none
deriving DecidableEq

/-- The two quoted sides a single book holds for one prop group. -/
structure Sides where
  over : Option ℤ := none
  under : Option ℤ := none
deriving DecidableEq

/-- The `(event_key, matchup, player, stat, line)` grouping key. -/
structure GKey where
  eventKey : String
  matchup : String
  player : String
  stat : String
  line : ℚ
deriving DecidableEq

/-- Insertion-ordered book → sides map for one group. -/
abbrev Bookmap := List (String × Sides)

/-- A built no-vig prop row (the dict appended to `out[matchup]`). -/
structure PRow where
  matchup : String
  player : String
  stat : String
  line : ℚ
  odds : ℤ
  shopTag : String
  fairBook : String
  probOver : ℚ
  probUnder : ℚ
  metaSource : String := ""
  metaFlags : List String := []
  metaPaired : String := ""
  overBook : String := ""
  underBook : String := ""
  assumedOverround : ℚ := 0
  priorityScore : ℚ := 0
deriving DecidableEq

/-- Embeds `pairing.ALLOWED_MARKETS["mlb"]`. -/
def allowed_markets_mlb : List (String × (ℚ × ℚ)) :=
  [("batter_hits", (1/2, 7/2)), ("batter_home_runs", (1/2, 3/2)),
   ("batter_total_bases", (1/2, 7/2)), ("pitcher_strikeouts", (3/2, 25/2)),
   ("rbis", (1/2, 5/2)), ("runs", (1/2, 5/2))]

/-- Embeds `pairing._market_ok`, including the hard exclusion of total-bases
lines above 1.5. -/
def market_ok (league stat : String) (line : ℚ) : Bool :=
  match (if league = "mlb" then allowed_markets_mlb.lookup stat else none) with
  | none => false
  | some rng =>
    if stat = "batter_total_bases" && decide ((3:ℚ)/2 < line) then false
    else decide (rng.1 ≤ line) && decide (line ≤ rng.2)

def set_side (s : Sides) (side : String) (od : ℤ) : Sides :=
  if side = "over" then { s with over := some od } else { s with under := some od }

def update_bookmap : Bookmap → String → String → ℤ → Bookmap
  | [], book, side, od => [(book, set_side {} side od)]
  | (b, s) :: rest, book, side, od =>
    if b = book then (b, set_side s side od) :: rest
    else (b, s) :: update_bookmap rest book side od

def update_by_prop : List (GKey × Bookmap) → GKey → String → String → ℤ →
    List (GKey × Bookmap)
  | [], k, book, side, od => [(k, update_bookmap [] book side od)]
  | (k0, bm) :: rest, k, book, side, od =>
    if k0 = k then (k0, update_bookmap bm book side od) :: rest
    else (k0, bm) :: update_by_prop rest k book side od

/-- The aggregation loop of `build_props_novig`: filter offers by book,
market allow-list and side, and collect `by_prop[(event,matchup,player,stat,
line)][book][side] = odds`. -/
def aggregate (league : String) (books : List String) (offers : List RawOffer) :
    List (GKey × Bookmap) :=
  offers.foldl (fun m o =>
    let book := pyLower o.book
    if books.contains book then
      match o.stat, o.line with
      | some st, some ln =>
        if market_ok league st ln then
          let side := pyLower o.side
          if side = "over" || side = "under" then
            match o.odds with
            | some od => update_by_prop m ⟨o.eventKey, o.matchup, o.player, st, ln⟩ book side od
            | none => m
          else m
        else m
      | _, _ => m
    else m) []

def bump_overround : List (String × (ℚ × ℕ)) → String → ℚ → List (String × (ℚ × ℕ))
  | [], b, v => [(b, (v, 1))]
  | (b0, sn) :: rest, b, v =>
    if b0 = b then (b0, (sn.1 + v, sn.2 + 1)) :: rest
    else (b0, sn) :: bump_overround rest b v

/-- The measured per-book overround sums/counts over fully paired lines.  The
Python `american_to_prob(x) or 0.0` guard is a no-op on numeric input (the
implied probability is always positive), so the numeric conversion is used
directly. -/
def overround_sums (byProp : List (GKey × Bookmap)) : List (String × (ℚ × ℕ)) :=
  byProp.foldl (fun acc kv =>
    kv.2.foldl (fun acc2 bs =>
      match bs.2.over, bs.2.under with
      | some ov, some un =>
        bump_overround acc2 bs.1
          (max 0 (Novig.american_to_prob_num ov + Novig.american_to_prob_num un - 1))
      | _, _ => acc2) acc) []

/-- The `avg_overround` dict as a total function (entries exist only for books
seen in `by_prop`; every other book reads the default, exactly as
`avg_overround.get(b, default_overround)` does). -/
def avg_overround (byProp : List (GKey × Bookmap)) (default_overround : ℚ) (b : String) : ℚ :=
  match (overround_sums byProp).lookup b with
  | some sn => if sn.2 = 0 then default_overround else sn.1 / sn.2
  | none => default_overround

/-- Embeds `pairing._decorate`: attach `meta.source`, confidence flags and the
`priority_score`. -/
def decorate (prefer_side : String) (high_threshold : ℚ) (p : PRow) (source : String) : PRow :=
  let tag := toString (pyInt (high_threshold * 100))
  let flagOver := "HIGH_OVER_" ++ tag
  let flagAny := "HIGH_ANY_" ++ tag
  let flags := (if high_threshold ≤ p.probOver then [flagOver] else []) ++
               (if high_threshold ≤ max p.probOver p.probUnder then [flagAny] else [])
  let base := if prefer_side = "over" then p.probOver - 1/2 else max p.probOver p.probUnder - 1/2
  let bonus : ℚ := if flags.contains flagOver then 1 else if flags.contains flagAny then 1/2 else 0
  { p with metaSource := source, metaFlags := flags,
           priorityScore := pyRound 6 (base * 2 + bonus) }

/-- Strategy 1 of `build_props_novig`: the within-book pairing loop, carrying
`(best, best_score)` exactly as the Python loop does (`score > best_score`
keeps the first maximum). -/
def within_book_fold (prefer_side : String) (high_threshold : ℚ) (mu pl st : String) (ln : ℚ) :
    Bookmap → Option PRow × ℚ → Option PRow × ℚ
  | [], acc => acc
  | (b, s) :: rest, acc =>
    let acc2 :=
      match s.over, s.under with
      | some ov, some un =>
        match Novig.novig_two_way (some (ov : ℚ)) (some (un : ℚ)) with
        | some pq =>
          let score := |pq.1 - 1/2|
          if acc.2 < score then
            (some (decorate prefer_side high_threshold
              { matchup := mu, player := pl, stat := st, line := ln, odds := ov,
                shopTag := b, fairBook := b, probOver := pq.1, probUnder := pq.2 } "novig"),
             score)
          else acc
        | none => acc
      | _, _ => acc
    within_book_fold prefer_side high_threshold mu pl st ln rest acc2

def overs_of (bm : Bookmap) : List (String × ℤ) :=
  bm.filterMap (fun bs => bs.2.over.map (fun od => (bs.1, od)))

def unders_of (bm : Bookmap) : List (String × ℤ) :=
  bm.filterMap (fun bs => bs.2.under.map (fun od => (bs.1, od)))

/-- Inner loop of strategy 2: pair one over-quoting book against every
under-quoting book at the same line, probabilities renormalised jointly. -/
def cross_inner (prefer_side : String) (high_threshold : ℚ) (mu pl st : String) (ln : ℚ)
    (bo : String × ℤ) : List (String × ℤ) → Option PRow × ℚ → Option PRow × ℚ
  | [], acc => acc
  | bu :: rest, acc =>
    let pO := Novig.american_to_prob_num (bo.2 : ℚ)
    let pU := Novig.american_to_prob_num (bu.2 : ℚ)
    let acc2 :=
      if pO + pU ≤ 0 then acc
      else
        let pO2 := pyRound 4 (pO / (pO + pU))
        let pU2 := pyRound 4 (pU / (pO + pU))
        let score := |pO2 - 1/2|
        if acc.2 < score then
          (some (decorate prefer_side high_threshold
            { matchup := mu, player := pl, stat := st, line := ln, odds := bo.2,
              shopTag := bo.1 ++ "~" ++ bu.1, fairBook := "crossbook",
              probOver := pO2, probUnder := pU2, metaPaired := "crossbook",
              overBook := bo.1, underBook := bu.1 } "crossbook"), score)
        else acc
    cross_inner prefer_side high_threshold mu pl st ln bo rest acc2

/-- Strategy 2 of `build_props_novig`: the cross-book double loop. -/
def cross_book_fold (prefer_side : String) (high_threshold : ℚ) (mu pl st : String) (ln : ℚ)
    (unders : List (String × ℤ)) : List (String × ℤ) → Option PRow × ℚ → Option PRow × ℚ
  | [], acc => acc
  | bo :: rest, acc =>
    cross_book_fold prefer_side high_threshold mu pl st ln unders rest
      (cross_inner prefer_side high_threshold mu pl st ln bo unders acc)

/-- Strategy 3 of `build_props_novig`: the single-side fallback — the first
book (in insertion order) quoting exactly one side, the missing side inferred
from that book's average measured overround, clamped to `[0.01, 0.99]`. -/
def single_side_select (prefer_side : String) (high_threshold : ℚ) (avgOv : String → ℚ)
    (mu pl st : String) (ln : ℚ) : Bookmap → Option PRow
  | [] => none
  | (b, s) :: rest =>
    match s.over, s.under with
    | some ov, none =>
      let r := avgOv b
      let pO := Novig.american_to_prob_num (ov : ℚ)
      let pO2 := max (1/100) (min (99/100) (pyRound 4 (pO / (1 + r))))
      some (decorate prefer_side high_threshold
        { matchup := mu, player := pl, stat := st, line := ln, odds := ov,
          shopTag := b, fairBook := "single_side", probOver := pO2,
          probUnder := pyRound 4 (1 - pO2), metaPaired := "single_side",
          assumedOverround := r } "single_side")
    | none, some un =>
      let r := avgOv b
      let pU := Novig.american_to_prob_num (un : ℚ)
      let pU2 := max (1/100) (min (99/100) (pyRound 4 (pU / (1 + r))))
      some (decorate prefer_side high_threshold
        { matchup := mu, player := pl, stat := st, line := ln, odds := un,
          shopTag := b, fairBook := "single_side", probOver := pyRound 4 (1 - pU2),
          probUnder := pU2, metaPaired := "single_side",
          assumedOverround := r } "single_side")
    | _, _ => single_side_select prefer_side high_threshold avgOv mu pl st ln rest

/-- The per-group selection of `build_props_novig`: within-book, then
cross-book (only if nothing was kept), then single-side fallback (only if
still nothing) — the first strategy yielding a candidate supplies the kept
row.  The `(best, best_score)` pair carries over between stages exactly as in
the Python loop. -/
def select_group (prefer_side : String) (high_threshold : ℚ) (avgOv : String → ℚ)
    (allow_crossbook allow_single_side : Bool) (mu pl st : String) (ln : ℚ)
    (bm : Bookmap) : Option PRow :=
  let step1 := within_book_fold prefer_side high_threshold mu pl st ln bm (none, -1)
  match step1.1 with
  | some c => some c
  | none =>
    let step2 :=
      if allow_crossbook then
        cross_book_fold prefer_side high_threshold mu pl st ln (unders_of bm) (overs_of bm) step1
      else step1
    match step2.1 with
    | some c => some c
    | none =>
      if allow_single_side then single_side_select prefer_side high_threshold avgOv mu pl st ln bm
      else none

/-- The `over_only` flag as the Python function actually evaluates it: the
source reads `locals().get("over_only", False)`, but `build_props_novig` has
no parameter or local named `over_only`, so the lookup yields `False` on
every invocation. -/
def over_only_flag : Bool := false

/-- The (unreachable) over-only pruning body: drop rows with de-vigged over
probability below 0.50, then drop matchups left empty. -/
def prune_over_only (gs : List (String × List PRow)) : List (String × List PRow) :=
  (gs.map (fun g => (g.1, g.2.filter (fun p => decide ((1:ℚ)/2 ≤ p.probOver))))).filter
    (fun g => !g.2.isEmpty)

/-- Embeds `pairing.build_props_novig`. -/
def build_props_novig (league : String) (raw_offers : List RawOffer)
    (prefer_books : Option (List String)) (allow_crossbook allow_single_side : Bool)
    (default_overround : ℚ) (prefer_side : String) (high_threshold : ℚ) :
    List (String × List PRow) :=
  let books := (prefer_books.getD ["draftkings", "fanduel", "betmgm"]).map pyLower
  let byProp := aggregate league books raw_offers
  let avgOv := avg_overround byProp default_overround
  let grouped := byProp.foldl (fun out kv =>
    match select_group prefer_side high_threshold avgOv allow_crossbook allow_single_side
        kv.1.matchup kv.1.player kv.1.stat kv.1.line kv.2 with
    | some c => appendGroup out kv.1.matchup c
    | none => out) []
  let filtered := if over_only_flag then prune_over_only grouped else grouped
  filtered.map (fun g => (g.1, g.2.mergeSort (fun a b => decide (b.probOver ≤ a.probOver))))

end Pairing

namespace App

/-- Embeds the alias table of `app._norm_league`. -/
def league_aliases : List (String × String) :=
  [("ncaa", "ncaaf"), ("cfb", "ncaaf"), ("college_football", "ncaaf"), ("ncaaf", "ncaaf"),
   ("nfl", "nfl"), ("mlb", "mlb"), ("mma", "ufc"), ("udc", "ufc"), ("ufc", "ufc")]

/-- Embeds `app._norm_league`. -/
def norm_league (s : Option String) : String :=
  let t := pyLower (pyStrip (s.getD ""))
  match league_aliases.lookup t with
  | some v => v
  | none => t

/-- The JSON response of the `/player_props` route, as far as the claims
inspect it: HTTP status, the props list, the matchup grouping and the meta
fields. -/
structure PropsResponse where
  status : ℕ
  props : List OddsApi.Row := []
  groups : List (String × List OddsApi.Row) := []
  metaLeague : String := ""
  metaAiAttached : ℕ := 0
  errorMsg : Option String := none
deriving DecidableEq

/-- The matchup grouping loop of `app.get_props`; for MLB an unmatched row is
defaulted into the `MLB Game` group, other leagues keep `Unknown`. -/
def group_props (league : String) (props : List OddsApi.Row) :
    List (String × List OddsApi.Row) :=
  props.foldl (fun g p =>
    let mu0 := p.matchup.getD "Unknown"
    let mu := if league = "mlb" && mu0 == "Unknown" then "MLB Game" else mu0
    appendGroup g mu p) []

/-- Embeds `app.get_props` (the `/player_props` route).  `fetch` stands for
the per-league slot-cached fetcher dispatch; `aiAttach` stands for the MLB AI
overlay when one is importable and enabled (`none` models the import-failure /
disabled fallback), returning the mutated rows and the attached count.  An
unsupported league raises `ValueError`, which the route's catch-all converts
into a 503 JSON error. -/
def get_props (fetch : String → List OddsApi.Row)
    (aiAttach : Option (List OddsApi.Row → List OddsApi.Row × ℕ))
    (league_in : Option String) : PropsResponse :=
  let league := norm_league league_in
  if league = "mlb" then
    let props0 := fetch "mlb"
    let pc := match aiAttach with
      | some f => f props0
      | none => (props0, 0)
    { status := 200, props := pc.1, groups := group_props "mlb" pc.1,
      metaLeague := "mlb", metaAiAttached := pc.2 }
  else if league = "nfl" then
    let props0 := fetch "nfl"
    { status := 200, props := props0, groups := group_props "nfl" props0,
      metaLeague := "nfl" }
  else if league = "ncaaf" then
    let props0 := fetch "ncaaf"
    { status := 200, props := props0, groups := group_props "ncaaf" props0,
      metaLeague := "ncaaf" }
  else if league = "ufc" then
    let props0 := fetch "ufc"
    { status := 200, props := props0, groups := group_props "ufc" props0,
      metaLeague := "ufc" }
  else
    { status := 503, errorMsg := some ("Unsupported league: " ++ league_in.getD "None") }

/-- A value of the license-key JSON store.  `none` models a falsy stored value
(`null`, `{}`, …), which `verify_key` rejects; issued keys always store a
truthy record. -/
structure LicenseRecord where
  email : String
  plan : String
deriving DecidableEq

abbrev Store := List (String × Option LicenseRecord)

/-- Embeds the check loop of `app.verify_key` (the already-stripped query key
is compared case-insensitively against every stored key, and the stored value
must be truthy). -/
def verify_key (store : Store) (user_key : String) : Bool :=
  store.any (fun kv => (pyUpper kv.1 == pyUpper user_key) && kv.2.isSome)

def digitChar (n : ℕ) : Char := Char.ofNat (48 + n % 10)

def pad4 (n : ℕ) : String :=
  ⟨[digitChar (n / 1000), digitChar (n / 100), digitChar (n / 10), digitChar n]⟩

/-- Python `str(n)[-4:]` on a natural number: the last four characters of the
decimal representation. -/
def last4 (n : ℕ) : String := if n < 10000 then toString n else pad4 (n % 10000)

/-- The key derivation of `app.verify`: lowercased last whitespace-separated
word of the purchaser's name, concatenated with the last 4 characters of the
decimal form of a random UUID integer.  (A falsy customer name is replaced by
`user` one line earlier in the source; `getLastD` carries that default.) -/
def derive_key (customer_name : String) (uuid_int : ℕ) : String :=
  pyLower ((pySplitWs customer_name).getLastD "user") ++ last4 uuid_int

/-- Python dict assignment on the license store: overwrite in place or append. -/
def store_insert (store : Store) (k : String) (v : Option LicenseRecord) : Store :=
  if store.any (fun kv => kv.1 == k) then
    store.map (fun kv => if kv.1 == k then (k, v) else kv)
  else store ++ [(k, v)]

/-- The key-issuing tail of `app.verify` for the license-keyed product:
derive the key and persist `{email, plan}` under it. -/
def issue_key (store : Store) (email customer_name : String) (uuid_int : ℕ)
    (plan : String) : String × Store :=
  let key := derive_key customer_name uuid_int
  (key, store_insert store key (some ⟨email, plan⟩))

end App

theorem roundHalfEven_close (x : ℚ) : |(roundHalfEven x : ℚ) - x| ≤ 1/2 := by
  have h0 : (⌊x⌋ : ℚ) ≤ x := Int.floor_le x
  have h1 : x < ⌊x⌋ + 1 := Int.lt_floor_add_one x
  rw [roundHalfEven, abs_le]
  split_ifs with h2 h3 h4 <;> push_cast <;> constructor <;> linarith

theorem pyRound_close (p : ℕ) (x : ℚ) : |pyRound p x - x| ≤ 1 / (2 * 10 ^ p) := by
  have h := roundHalfEven_close (x * 10 ^ p)
  have hp : (0:ℚ) < 10 ^ p := by positivity
  have he : pyRound p x - x = ((roundHalfEven (x * 10 ^ p) : ℚ) - x * 10 ^ p) / 10 ^ p := by
    field_simp [pyRound]
    ring
  rw [he, abs_div, abs_of_pos hp, div_le_div_iff₀ hp (by positivity)]
  calc |(roundHalfEven (x * 10 ^ p) : ℚ) - x * 10 ^ p| * (2 * 10 ^ p)
      ≤ (1/2) * (2 * 10 ^ p) := mul_le_mul_of_nonneg_right h (by positivity)
    _ = 1 * 10 ^ p := by ring

/-- Two complementary probabilities each rounded to 4 places still sum to 1
within `1/10000`. -/
theorem pyRound4_pair (x y : ℚ) (h : x + y = 1) :
    |pyRound 4 x + pyRound 4 y - 1| ≤ 1/10000 := by
  have hx := pyRound_close 4 x
  have hy := pyRound_close 4 y
  have he : pyRound 4 x + pyRound 4 y - 1 = (pyRound 4 x - x) + (pyRound 4 y - y) := by
    rw [← h]; ring
  rw [he]
  calc |(pyRound 4 x - x) + (pyRound 4 y - y)|
      ≤ |pyRound 4 x - x| + |pyRound 4 y - y| := abs_add _ _
    _ ≤ 1 / (2 * 10 ^ 4) + 1 / (2 * 10 ^ 4) := add_le_add hx hy
    _ = 1/10000 := by norm_num

theorem Novig.american_to_prob_num_pos (o : ℚ) : 0 < Novig.american_to_prob_num o := by
  rw [Novig.american_to_prob_num]
  split_ifs with h
  · positivity
  · push_neg at h
    have h2 : (0:ℚ) < -o := by linarith
    positivity

/-- On numeric inputs the spec-modelled `novig_two_way` always succeeds and
returns a positive pair summing to exactly 1. -/
theorem Novig.novig_two_way_num (a b : ℚ) :
    ∃ pq : ℚ × ℚ, Novig.novig_two_way (some a) (some b) = some pq ∧
      pq.1 + pq.2 = 1 ∧ 0 < pq.1 ∧ 0 < pq.2 := by
  have ha := Novig.american_to_prob_num_pos a
  have hb := Novig.american_to_prob_num_pos b
  have hs : 0 < Novig.american_to_prob_num a + Novig.american_to_prob_num b := by linarith
  refine ⟨(Novig.american_to_prob_num a /
             (Novig.american_to_prob_num a + Novig.american_to_prob_num b),
           Novig.american_to_prob_num b /
             (Novig.american_to_prob_num a + Novig.american_to_prob_num b)),
          ?_, ?_, ?_, ?_⟩
  · rw [Novig.novig_two_way, Novig.american_to_prob, Novig.american_to_prob]
    simp only [not_le.mpr hs, if_false]
  · field_simp
  · positivity
  · positivity

/-- C2, counterexample.  At American odds 0 the claim's equation demands
`100/(0+100) = 1`, but `probability.american_to_prob` takes its negative
branch (`o > 0` is false) and returns `0`; the services copy returns `1`
(`a >= 0`), so the duplicated copies also disagree with each other at 0. -/
theorem c2_zero_odds_counterexample :
    Probability.american_to_prob (some 0) ≠ some (100 / (0 + 100)) ∧
    Probability.american_to_prob (some 0) = some 0 ∧
    OddsTotalsContext.american_to_prob (some 0) = 1 := by
  refine ⟨?_, ?_, ?_⟩ <;>
    norm_num [Probability.american_to_prob, OddsTotalsContext.american_to_prob]

/-- C2 (amended): away from 0 every duplicated copy of the conversion does
satisfy the claimed equation — `100/(o+100)` for `o > 0` and `|o|/(|o|+100)`
for `o < 0` — and `probability.american_to_prob` maps a missing input to an
absent value, while the services copy maps it to `0.0`.  At `o = 0` the copies
disagree (see the counterexample), so 0 is excluded. -/
theorem c2_conversion_copies_agree (o : ℚ) (n : ℤ) (ho : o ≠ 0) (hn : n ≠ 0) :
    (0 < o → Probability.american_to_prob (some o) = some (100 / (o + 100)) ∧
      Probability.american_to_implied o = 100 / (o + 100)) ∧
    (o < 0 → Probability.american_to_prob (some o) = some (|o| / (|o| + 100)) ∧
      Probability.american_to_implied o = |o| / (|o| + 100)) ∧
    (0 < n → OddsTotalsContext.american_to_prob (some n) = 100 / ((n : ℚ) + 100)) ∧
    (n < 0 → OddsTotalsContext.american_to_prob (some n) = |(n : ℚ)| / (|(n : ℚ)| + 100)) ∧
    Probability.american_to_prob none = none ∧
    OddsTotalsContext.american_to_prob none = 0 := by
  refine ⟨fun h => ⟨?_, ?_⟩, fun h => ⟨?_, ?_⟩, fun h => ?_, fun h => ?_, rfl, rfl⟩
  · simp [Probability.american_to_prob, if_pos h]
  · simp [Probability.american_to_implied, if_pos h]
  · have habs : |o| = -o := abs_of_neg h
    simp only [Probability.american_to_prob, if_neg (not_lt.mpr h.le), habs]
    rw [show (100 : ℚ) - o = -o + 100 by ring]
  · have habs : |o| = -o := abs_of_neg h
    simp [Probability.american_to_implied, if_neg (not_lt.mpr h.le), habs]
  · simp [OddsTotalsContext.american_to_prob, if_pos h.le]
  · have hlt : ¬ (0 ≤ n) := not_le.mpr h
    have habs : |(n : ℚ)| = -(n : ℚ) := by
      apply abs_of_neg
      exact_mod_cast h
    simp [OddsTotalsContext.american_to_prob, if_neg hlt, habs]

/-- C2, witness: the amended theorem evaluated at `o = -110` and `n = 150`. -/
theorem c2_conversion_copies_agree_witness :
    Probability.american_to_prob (some (-110)) = some (11/21) ∧
    OddsTotalsContext.american_to_prob (some 150) = 2/5 := by
  obtain ⟨h1, h2, h3, h4, h5, h6⟩ :=
    c2_conversion_copies_agree (-110) 150 (by norm_num) (by norm_num)
  constructor
  · rw [(h2 (by norm_num)).1]
    norm_num
  · rw [h3 (by norm_num)]
    norm_num

/-- C5: `current_slot` classifies hours in `[8,13)` as morning with next
boundary 13:00 the same day, `[13,18)` as afternoon with next boundary 18:00
the same day, hours ≥ 18 as night with next boundary 08:00 the following day,
and hours < 8 as night with next boundary 08:00 the same day; in particular
07:59 is night with boundary 08:00 same day, 08:00 sharp is morning with
boundary 13:00, and 18:01 is night with boundary 08:00 the next day. -/
theorem c5_current_slot_boundaries (dt : UniversalCache.LocalDT) :
    (8 ≤ dt.hour → dt.hour < 13 →
      UniversalCache.current_slot dt = ("morning", ⟨dt.day, 13, 0, 0, 0⟩)) ∧
    (13 ≤ dt.hour → dt.hour < 18 →
      UniversalCache.current_slot dt = ("afternoon", ⟨dt.day, 18, 0, 0, 0⟩)) ∧
    (18 ≤ dt.hour →
      UniversalCache.current_slot dt = ("night", ⟨dt.day + 1, 8, 0, 0, 0⟩)) ∧
    (dt.hour < 8 →
      UniversalCache.current_slot dt = ("night", ⟨dt.day, 8, 0, 0, 0⟩)) ∧
    (dt.hour = 7 → dt.minute = 59 →
      UniversalCache.current_slot dt = ("night", ⟨dt.day, 8, 0, 0, 0⟩)) ∧
    (dt.hour = 8 → dt.minute = 0 →
      UniversalCache.current_slot dt = ("morning", ⟨dt.day, 13, 0, 0, 0⟩)) ∧
    (dt.hour = 18 → dt.minute = 1 →
      UniversalCache.current_slot dt = ("night", ⟨dt.day + 1, 8, 0, 0, 0⟩)) := by
  refine ⟨fun h1 h2 => ?_, fun h1 h2 => ?_, fun h1 => ?_, fun h1 => ?_,
          fun h1 h2 => ?_, fun h1 h2 => ?_, fun h1 h2 => ?_⟩ <;>
    simp only [UniversalCache.current_slot] <;>
    split_ifs with ha hb hc <;> first
      | rfl
      | omega

/-- C5, witness: the theorem applied at the concrete instant 08:00:00.000000
(day 0). -/
theorem c5_current_slot_boundaries_witness :
    UniversalCache.current_slot ⟨0, 8, 0, 0, 0⟩ = ("morning", ⟨0, 13, 0, 0, 0⟩) :=
  (c5_current_slot_boundaries ⟨0, 8, 0, 0, 0⟩).1 (by norm_num) (by norm_num)

theorem OddsApi.ensure_fair_eq (r : OddsApi.Row) :
    (OddsApi.ensure_shop_and_fallback r).fair = r.fair := by
  rw [OddsApi.ensure_shop_and_fallback]
  split_ifs
  · cases r.odds <;> rfl
  · rfl

/-- After one pass of `_attach_fair_or_implied` over a row whose `fair.prob`
is (or defaults to) the `{0,0}` placeholder, the pricing invariant holds. -/
theorem OddsApi.attach_invariant (r : OddsApi.Row)
    (h : (r.fair.getD {}).prob = {}) :
    OddsApi.fairInvariant (OddsApi.attach_fair_or_implied r) := by
  rcases hso : (r.shop.getD {}).over with _ | ov <;>
    rcases hsu : (r.shop.getD {}).under with _ | un
  · rcases hod : r.odds with _ | fb
    · simp only [OddsApi.fairInvariant, OddsApi.attach_fair_or_implied, hso, hsu, hod]
      refine ⟨_, rfl, Or.inl ?_⟩
      rw [h]
      exact ⟨rfl, rfl⟩
    · simp only [OddsApi.fairInvariant, OddsApi.attach_fair_or_implied, hso, hsu, hod]
      exact ⟨_, rfl, Or.inr (pyRound4_pair _ _ (by ring))⟩
  · simp only [OddsApi.fairInvariant, OddsApi.attach_fair_or_implied, hso, hsu]
    exact ⟨_, rfl, Or.inr (pyRound4_pair _ _ (by ring))⟩
  · simp only [OddsApi.fairInvariant, OddsApi.attach_fair_or_implied, hso, hsu]
    exact ⟨_, rfl, Or.inr (pyRound4_pair _ _ (by ring))⟩
  · obtain ⟨pq, hpq, hsum, hp1, hp2⟩ :=
      Novig.novig_two_way_num (ov.american : ℚ) (un.american : ℚ)
    simp only [OddsApi.fairInvariant, OddsApi.attach_fair_or_implied, hso, hsu,
      OddsApi.fair_probs_from_two_sided, hpq]
    exact ⟨_, rfl, Or.inr (pyRound4_pair _ _ hsum)⟩

theorem OddsApi.FairProb.eq_default (p : OddsApi.FairProb)
    (h1 : p.over = 0) (h2 : p.under = 0) : p = {} := by
  cases p
  simp only at h1 h2
  rw [show (({} : OddsApi.FairProb)) = ⟨0, 0⟩ from rfl, h1, h2]

/-- C1: for every freshly built prop row (no `fair` yet, as the pipeline
constructs them), `_attach_fair_or_implied` (and the `_finalize_fair` repair
pass after it) leaves `fair.prob` either at the `{0,0}` placeholder or
summing to 1 within `1/10000`, and the attachment follows the stated
priority: both shop sides → no-vig split with fair American prices and the
source book; exactly one side → that side's implied probability and its
complement; neither side but a generic `odds` fallback → implied probability
from the fallback; no price anywhere → the `{0,0}` placeholder. -/
theorem c1_fair_attachment (r : OddsApi.Row) (hfresh : r.fair = none) :
    OddsApi.fairInvariant (OddsApi.attach_fair_or_implied r) ∧
    OddsApi.fairInvariant (OddsApi.finalize_fair_row (OddsApi.attach_fair_or_implied r)) ∧
    (∀ s ov un, r.shop = some s → s.over = some ov → s.under = some un →
      ∃ pq : ℚ × ℚ,
        OddsApi.fair_probs_from_two_sided ov.american un.american = some pq ∧
        pq.1 + pq.2 = 1 ∧
        (OddsApi.attach_fair_or_implied r).fair = some
          { prob := { over := pyRound 4 pq.1, under := pyRound 4 pq.2 },
            american := some (OddsApi.fair_odds_from_prob pq.1,
                              OddsApi.fair_odds_from_prob pq.2),
            book := some (pyOr ov.book (pyOr un.book (r.bookmaker.getD ""))) }) ∧
    (∀ s ov, r.shop = some s → s.over = some ov → s.under = none →
      (OddsApi.attach_fair_or_implied r).fair = some
        { prob := { over := pyRound 4 (Novig.american_to_prob_num ov.american),
                    under := pyRound 4 (1 - Novig.american_to_prob_num ov.american) },
          american := none, book := some (pyOr ov.book (r.bookmaker.getD "")) }) ∧
    (∀ s un, r.shop = some s → s.over = none → s.under = some un →
      (OddsApi.attach_fair_or_implied r).fair = some
        { prob := { over := pyRound 4 (1 - Novig.american_to_prob_num un.american),
                    under := pyRound 4 (Novig.american_to_prob_num un.american) },
          american := none, book := some (pyOr un.book (r.bookmaker.getD "")) }) ∧
    (∀ fb, r.shop = none → r.odds = some fb →
      (OddsApi.attach_fair_or_implied r).fair = some
        { prob := { over := pyRound 4 (Novig.american_to_prob_num fb),
                    under := pyRound 4 (1 - Novig.american_to_prob_num fb) },
          american := none, book := some (r.bookmaker.getD "") }) ∧
    (r.shop = none → r.odds = none →
      (OddsApi.attach_fair_or_implied r).fair = some
        { prob := { over := 0, under := 0 }, american := none, book := none }) := by
  have hgetD : r.fair.getD {} = {} := by rw [hfresh]; rfl
  refine ⟨OddsApi.attach_invariant r (by rw [hgetD]), ?_, ?_, ?_, ?_, ?_, ?_⟩
  · by_cases hz : OddsApi.is_zero_prob (OddsApi.attach_fair_or_implied r) = true
    · rw [OddsApi.finalize_fair_row, if_pos hz]
      apply OddsApi.attach_invariant
      rw [OddsApi.ensure_fair_eq]
      rw [OddsApi.is_zero_prob] at hz
      simp only [Bool.and_eq_true, decide_eq_true_eq] at hz
      exact OddsApi.FairProb.eq_default _ hz.1 hz.2
    · rw [OddsApi.finalize_fair_row, if_neg hz]
      exact OddsApi.attach_invariant r (by rw [hgetD])
  · intro s ov un hs hov hun
    obtain ⟨pq, hpq, hsum, hp1, hp2⟩ :=
      Novig.novig_two_way_num (ov.american : ℚ) (un.american : ℚ)
    refine ⟨pq, ?_, hsum, ?_⟩
    · rw [OddsApi.fair_probs_from_two_sided]
      exact hpq
    · simp only [OddsApi.attach_fair_or_implied, hs, Option.getD_some, hov, hun, hfresh,
        OddsApi.fair_probs_from_two_sided, hpq, Option.getD_none]
  · intro s ov hs hov hun
    simp only [OddsApi.attach_fair_or_implied, hs, Option.getD_some, hov, hun, hfresh,
      Option.getD_none]
  · intro s un hs hov hun
    simp only [OddsApi.attach_fair_or_implied, hs, Option.getD_some, hov, hun, hfresh,
      Option.getD_none]
  · intro fb hs hod
    simp only [OddsApi.attach_fair_or_implied, hs, hod, hfresh, Option.getD_none]
  · intro hs hod
    simp only [OddsApi.attach_fair_or_implied, hs, hod, hfresh, Option.getD_none]

/-- C1, witness: the theorem applied to a concrete two-sided row (both sides
-110) — the attached fair pair is `(0.5, 0.5)` with fair American prices
`(-100, -100)` and source book `fanduel`. -/
theorem c1_fair_attachment_witness :
    (OddsApi.attach_fair_or_implied
        { player := "Test Batter", stat := "batter_hits", line := some (3/2),
          shop := some { over := some ⟨-110, "fanduel"⟩, under := some ⟨-110, "draftkings"⟩ },
          bookmaker := some "fanduel", odds := some (-110) }).fair = some
      { prob := { over := 1/2, under := 1/2 }, american := some (-100, -100),
        book := some "fanduel" } := by
  obtain ⟨hinv, hfin, hboth, h4, h5, h6, h7⟩ :=
    c1_fair_attachment
      { player := "Test Batter", stat := "batter_hits", line := some (3/2),
        shop := some { over := some ⟨-110, "fanduel"⟩, under := some ⟨-110, "draftkings"⟩ },
        bookmaker := some "fanduel", odds := some (-110) } rfl
  obtain ⟨pq, hpq, hsum, hfair⟩ := hboth _ _ _ rfl rfl rfl
  have hpq2 : OddsApi.fair_probs_from_two_sided (-110) (-110) = some (1/2, 1/2) := by
    simp only [OddsApi.fair_probs_from_two_sided, Novig.novig_two_way,
      Novig.american_to_prob]
    norm_num [Novig.american_to_prob_num]
  rw [hpq2] at hpq
  obtain rfl : pq = (1/2, 1/2) := by
    exact (Option.some_inj.mp hpq).symm
  rw [hfair]
  norm_num [pyRound, roundHalfEven, OddsApi.fair_odds_from_prob, pyOr]
  intro h
  exact absurd h (by decide)

/-- C3: `enrich_prop` preserves resolved pricing — whenever the incoming row's
`fair.prob` has a non-zero side, the enriched row carries exactly the same
`fair` field, and the whole result is the input row with only the enrichment
fields (`contextual_hit_rate`, `fantasy_hit_rate`, `enriched`) newly
attached, for every outcome of the contextual and fantasy computations. -/
theorem c3_enrich_preserves_fair (contextual fantasy : OddsApi.Ctx) (r : OddsApi.Row)
    (f : OddsApi.Fair) (hf : r.fair = some f)
    (hnz : f.prob.over ≠ 0 ∨ f.prob.under ≠ 0) :
    (OddsApi.enrich_prop contextual fantasy r).fair = r.fair ∧
    OddsApi.enrich_prop contextual fantasy r =
      { r with contextualHitRate := some contextual, fantasyHitRate := some fantasy,
               enriched := some true } := by
  simp only [OddsApi.enrich_prop, hf, if_pos hnz]
  constructor <;> trivial

/-- C3, witness: the theorem applied to a row priced `{over: 0.62, under:
0.38}` and two concrete enrichment outcomes. -/
theorem c3_enrich_preserves_fair_witness :
    (OddsApi.enrich_prop { hitRate := some (35/100), confidence := "Low" }
        { hitRate := some (7/20), confidence := "Low" }
        { player := "Test Batter", stat := "batter_hits", line := some (3/2),
          fair := some { prob := { over := 31/50, under := 19/50 } } }).fair =
      some { prob := { over := 31/50, under := 19/50 } } ∧
    (OddsApi.enrich_prop { hitRate := some (35/100), confidence := "Low" }
        { hitRate := some (7/20), confidence := "Low" }
        { player := "Test Batter", stat := "batter_hits", line := some (3/2),
          fair := some { prob := { over := 31/50, under := 19/50 } } }).enriched =
      some true := by
  obtain ⟨hA, hB⟩ := c3_enrich_preserves_fair
    { hitRate := some (35/100), confidence := "Low" }
    { hitRate := some (7/20), confidence := "Low" }
    { player := "Test Batter", stat := "batter_hits", line := some (3/2),
      fair := some { prob := { over := 31/50, under := 19/50 } } }
    { prob := { over := 31/50, under := 19/50 } } rfl (Or.inl (by norm_num))
  rw [hB]
  exact ⟨rfl, rfl⟩

/-- Re-gating a pick after the in-place `ev` write changes nothing: the gate
recomputes EV from `best_odds`/`prob` only and never reads the stored `ev`. -/
theorem AiScout.gate_pick_mutate (p : AiScout.Pick) :
    AiScout.gate_pick ((AiScout.gate_pick p).getD p) = AiScout.gate_pick p := by
  rcases hbo : p.best_odds with _ | odds <;> rcases hpr : p.prob with _ | prob <;>
    simp only [AiScout.gate_pick, hbo, hpr, Option.getD_none]
  by_cases hev : 0 < AiScout.ev_per_unit prob odds
  · simp only [if_pos hev, Option.getD_some, hbo, hpr, if_pos hev]
  · simp only [if_neg hev, Option.getD_none, hbo, hpr, if_neg hev]

/-- C4: `merge_and_gate` applied to the same LLM output object after a first
pass (whose in-place mutation wrote the recomputed `ev` onto kept picks)
returns the same list; every output pick carries a strictly positive EV
recomputed from its own `best_odds`/`prob` (so a pick with recomputed EV ≤ 0
never appears); the output is sorted descending by that recomputed EV; and
every input pick with priced fields and positive recomputed EV appears in the
output. -/
theorem c4_merge_and_gate (picks : List AiScout.Pick) :
    AiScout.merge_and_gate (AiScout.mutate_after_gate picks) =
      AiScout.merge_and_gate picks ∧
    (∀ q ∈ AiScout.merge_and_gate picks, ∃ odds prob,
      q.best_odds = some odds ∧ q.prob = some prob ∧
      0 < AiScout.ev_per_unit prob odds ∧ q.ev = some (AiScout.ev_per_unit prob odds)) ∧
    (AiScout.merge_and_gate picks).Pairwise (fun a b => b.ev.getD 0 ≤ a.ev.getD 0) ∧
    (∀ p ∈ picks, ∀ odds prob, p.best_odds = some odds → p.prob = some prob →
      0 < AiScout.ev_per_unit prob odds →
      ({ p with ev := some (AiScout.ev_per_unit prob odds) } : AiScout.Pick) ∈
        AiScout.merge_and_gate picks) := by
  refine ⟨?_, ?_, ?_, ?_⟩
  · rw [AiScout.merge_and_gate, AiScout.merge_and_gate, AiScout.mutate_after_gate,
      List.filterMap_map,
      show (AiScout.gate_pick ∘ fun p => (AiScout.gate_pick p).getD p) = AiScout.gate_pick
        from funext AiScout.gate_pick_mutate]
  · intro q hq
    rw [AiScout.merge_and_gate] at hq
    have hq2 : q ∈ (picks.filterMap AiScout.gate_pick) :=
      (List.mergeSort_perm _ _).mem_iff.mp hq
    obtain ⟨p, hp, hgate⟩ := List.mem_filterMap.mp hq2
    rcases hbo : p.best_odds with _ | odds <;> rcases hpr : p.prob with _ | prob <;>
      simp only [AiScout.gate_pick, hbo, hpr] at hgate <;>
      try exact Option.noConfusion hgate
    split_ifs at hgate with hev
    obtain rfl : _ = q := Option.some_inj.mp hgate
    exact ⟨odds, prob, rfl, rfl, hev, rfl⟩
  · have hs := @List.sorted_mergeSort AiScout.Pick
      (fun a b : AiScout.Pick => decide (b.ev.getD 0 ≤ a.ev.getD 0))
      (fun a b c hab hbc => by
        simp only [decide_eq_true_eq] at hab hbc ⊢
        exact le_trans hbc hab)
      (fun a b => by
        simp only [Bool.or_eq_true, decide_eq_true_eq]
        exact le_total (b.ev.getD 0) (a.ev.getD 0))
      (picks.filterMap AiScout.gate_pick)
    rw [AiScout.merge_and_gate]
    exact hs.imp (fun h => by simpa using h)
  · intro p hp odds prob hbo hpr hev
    have hgate : AiScout.gate_pick p =
        some ({ p with ev := some (AiScout.ev_per_unit prob odds) } : AiScout.Pick) := by
      simp only [AiScout.gate_pick, hbo, hpr, if_pos hev]
    have hm : ({ p with ev := some (AiScout.ev_per_unit prob odds) } : AiScout.Pick) ∈
        picks.filterMap AiScout.gate_pick :=
      List.mem_filterMap.mpr ⟨p, hp, hgate⟩
    rw [AiScout.merge_and_gate]
    exact (List.mergeSort_perm _ _).mem_iff.mpr hm

/-- C4, witness: a single pick at +120 with probability 0.5 has recomputed EV
0.1 and survives the gate with that `ev` written on it. -/
theorem c4_merge_and_gate_witness :
    ({ player := "Test Batter", best_odds := some 120, prob := some (1/2),
       ev := some (1/10) } : AiScout.Pick) ∈
      AiScout.merge_and_gate
        [{ player := "Test Batter", best_odds := some 120, prob := some (1/2) }] := by
  have he : AiScout.ev_per_unit (1/2) 120 = 1/10 := by
    norm_num [AiScout.ev_per_unit, AiScout.american_profit]
  have h := (c4_merge_and_gate
      [{ player := "Test Batter", best_odds := some 120, prob := some (1/2) }]).2.2.2
      { player := "Test Batter", best_odds := some 120, prob := some (1/2) }
      (by simp) 120 (1/2) rfl rfl (by rw [he]; norm_num)
  rw [he] at h
  exact h

theorem Pairing.decorate_source (ps : String) (ht : ℚ) (p : Pairing.PRow) (src : String) :
    (Pairing.decorate ps ht p src).metaSource = src := rfl

/-- Every candidate the within-book loop keeps was decorated with source
`novig`. -/
theorem Pairing.within_book_fold_source (ps : String) (ht : ℚ) (mu pl st : String) (ln : ℚ)
    (bm : Pairing.Bookmap) :
    ∀ acc : Option Pairing.PRow × ℚ, (∀ c, acc.1 = some c → c.metaSource = "novig") →
    ∀ c, (Pairing.within_book_fold ps ht mu pl st ln bm acc).1 = some c →
      c.metaSource = "novig" := by
  induction bm with
  | nil =>
    intro acc hacc c hc
    exact hacc c hc
  | cons e rest ih =>
    intro acc hacc c hc
    rw [Pairing.within_book_fold] at hc
    refine ih _ ?_ c hc
    rcases hov : e.2.over with _ | ov <;> rcases hun : e.2.under with _ | un <;>
      simp only [hov, hun] at *
    · exact hacc
    · exact hacc
    · exact hacc
    · rcases hnv : Novig.novig_two_way (some (ov : ℚ)) (some (un : ℚ)) with _ | pq <;>
        simp only [hnv]
      · exact hacc
      · by_cases hlt : acc.2 < |pq.1 - 1/2|
        · simp only [if_pos hlt]
          intro c2 hc2
          rw [← Option.some_inj.mp hc2]
          rfl
        · simp only [if_neg hlt]
          exact hacc

/-- The within-book loop never discards an already-kept candidate. -/
theorem Pairing.within_book_fold_isSome (ps : String) (ht : ℚ) (mu pl st : String) (ln : ℚ)
    (bm : Pairing.Bookmap) :
    ∀ acc : Option Pairing.PRow × ℚ, acc.1.isSome →
      (Pairing.within_book_fold ps ht mu pl st ln bm acc).1.isSome := by
  induction bm with
  | nil =>
    intro acc hacc
    exact hacc
  | cons e rest ih =>
    intro acc hacc
    rw [Pairing.within_book_fold]
    refine ih _ ?_
    rcases hov : e.2.over with _ | ov <;> rcases hun : e.2.under with _ | un <;>
      simp only [hov, hun]
    · exact hacc
    · exact hacc
    · exact hacc
    · rcases hnv : Novig.novig_two_way (some (ov : ℚ)) (some (un : ℚ)) with _ | pq <;>
        simp only [hnv]
      · exact hacc
      · by_cases hlt : acc.2 < |pq.1 - 1/2|
        · simp only [if_pos hlt, Option.isSome_some]
        · simp only [if_neg hlt]
          exact hacc

/-- If some book quotes both sides, the within-book loop keeps a candidate. -/
theorem Pairing.within_book_fold_finds (ps : String) (ht : ℚ) (mu pl st : String) (ln : ℚ)
    (bm : Pairing.Bookmap) :
    ∀ acc : Option Pairing.PRow × ℚ, (acc.1 = none → acc.2 = -1) →
      (∃ e ∈ bm, e.2.over.isSome ∧ e.2.under.isSome) →
      (Pairing.within_book_fold ps ht mu pl st ln bm acc).1.isSome := by
  induction bm with
  | nil =>
    intro acc hinv h
    obtain ⟨e, he, _⟩ := h
    exact absurd he (List.not_mem_nil e)
  | cons e0 rest ih =>
    intro acc hinv h
    rw [Pairing.within_book_fold]
    obtain ⟨e, he, heo, heu⟩ := h
    rcases List.mem_cons.mp he with rfl | hrest
    · obtain ⟨ov, hov⟩ := Option.isSome_iff_exists.mp heo
      obtain ⟨un, hun⟩ := Option.isSome_iff_exists.mp heu
      obtain ⟨pq, hnv, hsum, hp1, hp2⟩ := Novig.novig_two_way_num (ov : ℚ) (un : ℚ)
      simp only [hov, hun, hnv]
      by_cases hlt : acc.2 < |pq.1 - 1/2|
      · simp only [if_pos hlt]
        exact Pairing.within_book_fold_isSome ps ht mu pl st ln rest _ (by simp)
      · have hne : acc.1 ≠ none := by
          intro hn
          have h2 := hinv hn
          rw [h2] at hlt
          exact hlt (lt_of_lt_of_le (by norm_num) (abs_nonneg _))
        simp only [if_neg hlt]
        exact Pairing.within_book_fold_isSome ps ht mu pl st ln rest _
          (Option.isSome_iff_ne_none.mpr hne)
    · rcases hov : e0.2.over with _ | ov <;> rcases hun : e0.2.under with _ | un <;>
        simp only [hov, hun]
      · exact ih acc hinv ⟨e, hrest, heo, heu⟩
      · exact ih acc hinv ⟨e, hrest, heo, heu⟩
      · exact ih acc hinv ⟨e, hrest, heo, heu⟩
      · rcases hnv : Novig.novig_two_way (some (ov : ℚ)) (some (un : ℚ)) with _ | pq <;>
          simp only [hnv]
        · exact ih acc hinv ⟨e, hrest, heo, heu⟩
        · by_cases hlt : acc.2 < |pq.1 - 1/2|
          · simp only [if_pos hlt]
            exact Pairing.within_book_fold_isSome ps ht mu pl st ln rest _ (by simp)
          · simp only [if_neg hlt]
            exact ih acc hinv ⟨e, hrest, heo, heu⟩

/-- C6: in `build_props_novig`'s per-group selection, whenever some book
quotes both sides of the line, the kept row is the within-book stage's own
pick — decorated `meta.source = "novig"` — so no single-side fallback row can
be kept for the group, whatever the fallback's confidence score, and
regardless of the cross-book/single-side switches and overround table. -/
theorem c6_pairing_priority (ps : String) (ht : ℚ) (avgOv : String → ℚ)
    (ac as : Bool) (mu pl st : String) (ln : ℚ) (bm : Pairing.Bookmap)
    (h : ∃ e ∈ bm, e.2.over.isSome ∧ e.2.under.isSome) :
    ∃ c, Pairing.select_group ps ht avgOv ac as mu pl st ln bm = some c ∧
      c.metaSource = "novig" ∧ c.metaSource ≠ "single_side" ∧
      Pairing.select_group ps ht avgOv ac as mu pl st ln bm =
        (Pairing.within_book_fold ps ht mu pl st ln bm (none, -1)).1 := by
  have h1 : (Pairing.within_book_fold ps ht mu pl st ln bm (none, -1)).1.isSome :=
    Pairing.within_book_fold_finds ps ht mu pl st ln bm (none, -1) (fun _ => rfl) h
  obtain ⟨c, hc⟩ := Option.isSome_iff_exists.mp h1
  have hsrc := Pairing.within_book_fold_source ps ht mu pl st ln bm (none, -1)
    (fun c2 hc2 => absurd hc2 (by simp)) c hc
  have hsel : Pairing.select_group ps ht avgOv ac as mu pl st ln bm = some c := by
    simp only [Pairing.select_group, hc]
  refine ⟨c, hsel, hsrc, ?_, ?_⟩
  · rw [hsrc]
    decide
  · rw [hsel, hc]

/-- C6, witness: one book (`fanduel`) quotes both sides at -110 while a second
(`draftkings`) quotes only the under at -200; the selection keeps a
within-book `novig` row. -/
theorem c6_pairing_priority_witness :
    ∃ c, Pairing.select_group "over" (7/10) (fun _ => 1/25) true true
        "A @ B" "Test Batter" "batter_hits" (1/2)
        [("fanduel", { over := some (-110), under := some (-110) }),
         ("draftkings", { under := some (-200) })] = some c ∧
      c.metaSource = "novig" := by
  obtain ⟨c, hsel, hsrc, _, _⟩ := c6_pairing_priority "over" (7/10) (fun _ => 1/25)
    true true "A @ B" "Test Batter" "batter_hits" (1/2)
    [("fanduel", { over := some (-110), under := some (-110) }),
     ("draftkings", { under := some (-200) })]
    ⟨("fanduel", { over := some (-110), under := some (-110) }), by simp, by simp, by simp⟩
  exact ⟨c, hsel, hsrc⟩

/-- C7: the over-only filter of `build_props_novig` is dead code — the
source reads the flag via `locals().get("over_only", False)` and the function
has no `over_only` parameter or local, so the guard is `False` on every
invocation.  Evaluating the builder on an under-only offer shows a row whose
de-vigged over probability 0.359 < 0.50 is returned (not pruned), and its
matchup group is kept. -/
theorem c7_over_only_filter_dead :
    Pairing.over_only_flag = false ∧
    (Pairing.build_props_novig "mlb"
        [{ eventKey := "ev1", matchup := "A @ B", player := "Test Batter",
           stat := some "batter_hits", line := some (1/2), book := "draftkings",
           side := "under", odds := some (-200) }]
        none true true (1/25) "over" (7/10)).map
      (fun g => (g.1, g.2.map (fun p => (p.probOver, p.metaSource)))) =
      [("A @ B", [(359/1000, "single_side")])] ∧
    (359 : ℚ)/1000 < 1/2 := by
  refine ⟨rfl, ?_, by norm_num⟩
  have hbooks : (["draftkings", "fanduel", "betmgm"]).map pyLower =
      ["draftkings", "fanduel", "betmgm"] := rfl
  have hplu : pyLower "under" = "under" := rfl
  have hpld : pyLower "draftkings" = "draftkings" := rfl
  have hcont : (["draftkings", "fanduel", "betmgm"] : List String).contains
      "draftkings" = true := rfl
  have hne1 : (("under" : String) = "over") = False := by simp
  have hne2 : (("batter_hits" : String) = "batter_total_bases") = False := by simp
  norm_num [hne1, hne2, Pairing.build_props_novig, Pairing.aggregate, Pairing.market_ok,
    Pairing.allowed_markets_mlb, Pairing.update_by_prop, Pairing.update_bookmap,
    Pairing.set_side, Pairing.select_group, Pairing.within_book_fold,
    Pairing.cross_book_fold, Pairing.cross_inner, Pairing.overs_of, Pairing.unders_of,
    Pairing.single_side_select, Pairing.decorate, Pairing.avg_overround,
    Pairing.overround_sums, Pairing.bump_overround, Pairing.over_only_flag,
    Pairing.prune_over_only, appendGroup, pyOr, hbooks, hplu, hpld, hcont,
    Novig.american_to_prob_num, pyRound, roundHalfEven, List.lookup,
    List.mergeSort_singleton, min_def, max_def]

/-- C8, counterexample: a `/player_props` request for league `nba` (not one of
the four supported leagues after alias normalization) is answered with 503,
not with the client-error status 400 the claim states — the route raises
`ValueError` inside its own `try` and the catch-all turns any failure into a
503 JSON error. -/
theorem c8_unsupported_league_counterexample :
    (App.get_props (fun _ => []) none (some "nba")).status = 503 ∧ (503 : ℕ) ≠ 400 := by
  exact ⟨rfl, by decide⟩

/-- C8 (amended): a `/player_props` request whose league, after alias
normalization, is not one of `mlb`, `nfl`, `ncaaf`, `ufc` is answered with
HTTP status 503 (the route's catch-all error status) and an error message —
not 400. -/
theorem c8_unsupported_league_503 (fetch : String → List OddsApi.Row)
    (aiAttach : Option (List OddsApi.Row → List OddsApi.Row × ℕ))
    (league_in : Option String)
    (h : App.norm_league league_in ∉ (["mlb", "nfl", "ncaaf", "ufc"] : List String)) :
    (App.get_props fetch aiAttach league_in).status = 503 ∧
    (App.get_props fetch aiAttach league_in).errorMsg.isSome = true := by
  simp only [List.mem_cons, List.not_mem_nil, or_false, not_or] at h
  obtain ⟨h1, h2, h3, h4⟩ := h
  simp only [App.get_props, if_neg h1, if_neg h2, if_neg h3, if_neg h4]
  constructor <;> trivial

/-- C8, witness: the amended theorem applied to league `nba` with an empty
fetcher and no AI overlay. -/
theorem c8_unsupported_league_503_witness :
    (App.get_props (fun _ => []) none (some "nba")).status = 503 ∧
    (App.get_props (fun _ => []) none (some "nba")).errorMsg.isSome = true :=
  c8_unsupported_league_503 (fun _ => []) none (some "nba") (by decide)

theorem App.digitChar_isDigit (m : ℕ) : (App.digitChar m).isDigit = true := by
  rw [App.digitChar]
  have hm : m % 10 < 10 := Nat.mod_lt _ (by norm_num)
  set k := m % 10 with hk
  interval_cases k <;> decide

theorem App.store_insert_mem (store : App.Store) (k : String)
    (v : Option App.LicenseRecord) : (k, v) ∈ App.store_insert store k v := by
  rw [App.store_insert]
  split_ifs with hin
  · obtain ⟨kv, hkv, hbeq⟩ := List.any_eq_true.mp hin
    refine List.mem_map.mpr ⟨kv, hkv, ?_⟩
    rw [if_pos hbeq]
  · exact List.mem_append_right _ (List.mem_singleton.mpr rfl)

/-- The `verify_key` loop accepts any case variant of a stored truthy key. -/
theorem App.verify_key_mem (store : App.Store) (k : String) (rec : App.LicenseRecord)
    (q : String) (hmem : (k, some rec) ∈ store) (hq : pyUpper q = pyUpper k) :
    App.verify_key store q = true := by
  rw [App.verify_key]
  refine List.any_eq_true.mpr ⟨(k, some rec), hmem, ?_⟩
  simp only [hq, Option.isSome_some, Bool.and_true]
  exact beq_self_eq_true _

/-- C9: issuing a key for purchaser `Jane Doe` yields `doe` followed by the
4-digit tail of the UUID integer's decimal form, the issued record is stored,
and key verification is case-insensitive — any query whose uppercasing
matches the issued key's uppercasing verifies against the updated store (and
in general against any store holding a truthy record under the key). -/
theorem c9_license_key_flow (store : App.Store) (email plan : String) (u : ℕ)
    (hu : 10000 ≤ u) (q : String)
    (hq : pyUpper q = pyUpper (App.issue_key store email "Jane Doe" u plan).1) :
    (App.issue_key store email "Jane Doe" u plan).1 = "doe" ++ App.pad4 (u % 10000) ∧
    (App.pad4 (u % 10000)).length = 4 ∧
    (∀ c ∈ (App.pad4 (u % 10000)).data, c.isDigit = true) ∧
    App.verify_key (App.issue_key store email "Jane Doe" u plan).2 q = true ∧
    (∀ (st : App.Store) (k : String) (rec : App.LicenseRecord) (q2 : String),
      (k, some rec) ∈ st → pyUpper q2 = pyUpper k → App.verify_key st q2 = true) := by
  have hkey : (App.issue_key store email "Jane Doe" u plan).1 =
      "doe" ++ App.pad4 (u % 10000) := by
    show App.derive_key "Jane Doe" u = _
    rw [App.derive_key, App.last4, if_neg (not_lt.mpr hu)]
    congr 1
  refine ⟨hkey, rfl, ?_, ?_, App.verify_key_mem⟩
  · intro c hc
    have hc2 : c = App.digitChar (u % 10000 / 1000) ∨ c = App.digitChar (u % 10000 / 100) ∨
        c = App.digitChar (u % 10000 / 10) ∨ c = App.digitChar (u % 10000) := by
      simpa [App.pad4] using hc
    rcases hc2 with h | h | h | h <;> rw [h] <;> exact App.digitChar_isDigit _
  · refine App.verify_key_mem _ _ ⟨email, plan⟩ q ?_ hq
    show ((App.issue_key store email "Jane Doe" u plan).1, some ⟨email, plan⟩) ∈
      App.store_insert store (App.issue_key store email "Jane Doe" u plan).1
        (some ⟨email, plan⟩)
    exact App.store_insert_mem _ _ _

/-- C9, witness: for UUID integer 987651234 the issued key is `doe1234`, and
querying verification with `DOE1234` against the updated store succeeds. -/
theorem c9_license_key_flow_witness :
    (App.issue_key [] "jane@example.com" "Jane Doe" 987651234 "subscription").1 =
      "doe" ++ App.pad4 1234 ∧
    App.verify_key
      (App.issue_key [] "jane@example.com" "Jane Doe" 987651234 "subscription").2
      "DOE1234" = true := by
  obtain ⟨h1, h2, h3, h4, h5⟩ := c9_license_key_flow [] "jane@example.com" "subscription"
    987651234 (by norm_num) "DOE1234" (by rfl)
  exact ⟨h1, h4⟩

theorem UniversalCache.lookup_map_overwrite (k : String) (v : ℕ × Option ℕ) :
    ∀ mem : UniversalCache.Mem, mem.any (fun kv => kv.1 == k) = true →
      (mem.map (fun kv => if kv.1 == k then (k, v) else kv)).lookup k = some v := by
  intro mem
  induction mem with
  | nil => intro h; exact absurd h (by simp)
  | cons hd rest ih =>
    obtain ⟨a, b⟩ := hd
    intro h
    by_cases ha : a = k
    · subst ha
      simp [List.lookup_cons]
    · have hb : (a == k) = false := beq_eq_false_iff_ne.mpr ha
      have hb2 : (k == a) = false := beq_eq_false_iff_ne.mpr fun hkk => ha hkk.symm
      simp only [List.any_cons, hb, Bool.false_or] at h
      simp only [List.map_cons, hb, Bool.false_eq_true, if_false, List.lookup_cons, hb2]
      exact ih h
    
theorem UniversalCache.lookup_append_self (k : String) (v : ℕ × Option ℕ) :
    ∀ mem : UniversalCache.Mem, mem.any (fun kv => kv.1 == k) = false →
      (mem ++ [(k, v)]).lookup k = some v := by
  intro mem
  induction mem with
  | nil =>
    intro h
    simp [List.lookup_cons]
  | cons hd rest ih =>
    obtain ⟨a, b⟩ := hd
    intro h
    simp only [List.any_cons, Bool.or_eq_false_iff] at h
    have ha : a ≠ k := beq_eq_false_iff_ne.mp h.1
    have hb2 : (k == a) = false := beq_eq_false_iff_ne.mpr fun hkk => ha hkk.symm
    simp only [List.cons_append, List.lookup_cons, hb2]
    exact ih h.2

/-- A freshly inserted cache entry is the one `lookup` finds. -/
theorem UniversalCache.lookup_mem_insert (mem : UniversalCache.Mem) (k : String)
    (v : ℕ × Option ℕ) : (UniversalCache.mem_insert mem k v).lookup k = some v := by
  rw [UniversalCache.mem_insert]
  split_ifs with hin
  · exact UniversalCache.lookup_map_overwrite k v mem hin
  · rw [Bool.not_eq_true] at hin
    exact UniversalCache.lookup_append_self k v mem hin

/-- Reading back a stored JSON `null` gives `None`, the same answer as a miss,
whatever the clock says. -/
theorem UniversalCache.get_cached_set_none (mem : UniversalCache.Mem)
    (date slot : String) (now ttl : ℕ) (league : String) (now2 : ℕ) :
    UniversalCache.get_cached
      (UniversalCache.set_cached mem date slot now ttl league none)
      date slot now2 league = none := by
  rw [UniversalCache.get_cached, UniversalCache.set_cached,
    UniversalCache.lookup_mem_insert]
  exact ite_self none

/-- Whenever the cache answers `None`, `lookup_player_id` performs the people
search. -/
theorem MlbTrends.lookup_searches_on_miss (search : String → List MlbTrends.Candidate)
    (date slot : String) (now ttl : ℕ) (mem : UniversalCache.Mem) (name : String)
    (hint : Option String)
    (hg : UniversalCache.get_cached mem date slot now
      (MlbTrends.cache_key_player_id name) = none) :
    (MlbTrends.lookup_player_id search date slot now ttl mem name hint).2.2 = true := by
  rw [MlbTrends.lookup_player_id, hg]
  rcases hs : search name with _ | ⟨c0, rest⟩ <;> simp only [hs]
  rcases hint with _ | th
  · rfl
  · rcases hpick : MlbTrends.pick_by_team_hint (pyLower (pyStrip th)) (c0 :: rest) with _ | c <;>
      simp only [hpick]

/-- A `None` resolution always leaves a stored `null` under the name's key. -/
theorem MlbTrends.lookup_none_state (search : String → List MlbTrends.Candidate)
    (date slot : String) (now ttl : ℕ) (mem : UniversalCache.Mem) (name : String)
    (hint : Option String)
    (h : (MlbTrends.lookup_player_id search date slot now ttl mem name hint).1 = none) :
    (MlbTrends.lookup_player_id search date slot now ttl mem name hint).2.1 =
      UniversalCache.set_cached mem date slot now ttl
        (MlbTrends.cache_key_player_id name) none := by
  rcases hg : UniversalCache.get_cached mem date slot now
      (MlbTrends.cache_key_player_id name) with _ | pid
  · rw [MlbTrends.lookup_player_id, hg] at h ⊢
    rcases hs : search name with _ | ⟨c0, rest⟩ <;> simp only [hs] at h ⊢
    rcases hint with _ | th
    · simp only at h ⊢
      rw [h]
    · rcases hpick : MlbTrends.pick_by_team_hint (pyLower (pyStrip th)) (c0 :: rest) with _ | c <;>
        simp only [hpick] at h ⊢ <;> rw [h]
  · rw [MlbTrends.lookup_player_id, hg] at h
    exact absurd h (by simp)

/-- C10: in the bulk batter-trend subsystem a not-found player-id resolution
is not separately cached — after `lookup_player_id` returns `None` for a
name, any later call for the same name (same slot key, any clock, hint or
search behaviour) performs the people search again, because the cache layer
returns the stored `null` exactly as it returns a miss. -/
theorem c10_negative_pid_not_cached (search : String → List MlbTrends.Candidate)
    (date slot : String) (now ttl : ℕ) (mem : UniversalCache.Mem) (name : String)
    (hint : Option String)
    (h : (MlbTrends.lookup_player_id search date slot now ttl mem name hint).1 = none) :
    (∀ (search2 : String → List MlbTrends.Candidate) (now2 ttl2 : ℕ)
        (hint2 : Option String),
      (MlbTrends.lookup_player_id search2 date slot now2 ttl2
        (MlbTrends.lookup_player_id search date slot now ttl mem name hint).2.1
        name hint2).2.2 = true) ∧
    (∀ now2 : ℕ,
      UniversalCache.get_cached
        (MlbTrends.lookup_player_id search date slot now ttl mem name hint).2.1
        date slot now2 (MlbTrends.cache_key_player_id name) = none) := by
  have hstate := MlbTrends.lookup_none_state search date slot now ttl mem name hint h
  have hnone : ∀ now2 : ℕ,
      UniversalCache.get_cached
        (MlbTrends.lookup_player_id search date slot now ttl mem name hint).2.1
        date slot now2 (MlbTrends.cache_key_player_id name) = none := by
    intro now2
    rw [hstate]
    exact UniversalCache.get_cached_set_none mem date slot now ttl _ now2
  refine ⟨?_, hnone⟩
  intro search2 now2 ttl2 hint2
  exact MlbTrends.lookup_searches_on_miss search2 date slot now2 ttl2 _ name hint2 (hnone now2)

/-- C10, witness: a search oracle that finds nobody — the first call returns
`None`, and a second call on the resulting cache state searches again. -/
theorem c10_negative_pid_not_cached_witness :
    (MlbTrends.lookup_player_id (fun _ => []) "2025-07-01" "morning" 100 3600
      (MlbTrends.lookup_player_id (fun _ => []) "2025-07-01" "morning" 0 3600 []
        "Test Batter" none).2.1
      "Test Batter" none).2.2 = true := by
  exact (c10_negative_pid_not_cached (fun _ => []) "2025-07-01" "morning" 0 3600 []
    "Test Batter" none rfl).1 (fun _ => []) 100 3600 none
